import Mathlib

/-!
Shallow embedding of `ptag/tag.py` (the `Tag` element-tree class).

Python objects are mutable and compared by identity where no `__eq__` is
defined, so the embedding uses an explicit heap: a list of `Tag` records
indexed by natural-number ids.  A Python `Tag` attribute holding another
`Tag` becomes a `Nat` id into the heap; the class-level `Tag.context_stack`
becomes an explicit `List Nat` threaded through the operations (top of the
stack at the head).  `Text` (a `str` subclass) compares by string value, so
a text child is embedded as its string.  Fallible operations
(`normalize` / `affix` / `construct`, which can raise `ValueError`) return
`Except Unit`; `__exit__`, which raises `TypeError` when `self.children` is
`None`, returns `Option`.
-/

namespace Ptag

/-- A named-attribute value: Python `str`, `int`, `bool` or `None`
(`**kwargs` values as exercised by the code and its tests). -/
inductive AttrVal where
  | str (s : String)
  | int (n : Int)
  | bool (b : Bool)
  | none
deriving DecidableEq, Repr

/-- Python `str(val)` for an attribute value (f-string interpolation in
`Tag.__repr__`): `str` is itself, `int` its decimal form, `bool` is
`"True"` / `"False"`. -/
def AttrVal.strForm : AttrVal → String
  | .str s => s
  | .int n => toString n
  | .bool b => if b then "True" else "False"
  | .none => ""

/-- One entry of `Tag.children`: a `Text` node (a `str` subclass, equality
by string value) or a reference to a `Tag` object (equality by identity,
i.e. by heap id). -/
inductive Child where
  | text (s : String)
  | node (id : Nat)
deriving DecidableEq, Repr

/-- The `Tag` object state: `tag_name`, `args` (positional/boolean
attributes), `kwargs` (named attributes, insertion-ordered), `children`
(`Option.none` embeds Python `None`, the void element) and the `parent`
back-reference. -/
structure Tag where
  tag_name : String
  args : List String
  kwargs : List (String × AttrVal)
  children : Option (List Child)
  parent : Option Nat
deriving DecidableEq, Repr

/-- The heap of `Tag` objects; a `Tag` object is its index in this list. -/
abbrev Heap := List Tag

/-- One element of an iterable `content` argument: a `str`, a `Tag`
object, or anything else (which `_create_child` rejects). -/
inductive ContentItem where
  | str (s : String)
  | tag (id : Nat)
  | bad
deriving DecidableEq, Repr

/-- The `content` argument of `Tag.__init__` / `Tag.affix`: `None`, a
`str`, a `Tag`, an iterable of items, or any other (non-iterable,
non-str, non-Tag) value, which `normalize` rejects. -/
inductive Content where
  | none
  | str (s : String)
  | tag (id : Nat)
  | iter (items : List ContentItem)
  | bad
deriving DecidableEq, Repr

/-- Replace the node at index `i` (no-op when out of range, like
`list.__setitem__` guarded by existence; in Python the object is mutated
in place). -/
def modifyNode : Heap → Nat → (Tag → Tag) → Heap
  | [], _, _ => []
  | n :: rest, 0, f => f n :: rest
  | n :: rest, i + 1, f => n :: modifyNode rest i f

/-- Python string comparison, `xs <= ys`: lexicographic on code points. -/
def charListLe : List Char → List Char → Bool
  | [], _ => true
  | _ :: _, [] => false
  | c :: cs, d :: ds =>
      if c.toNat < d.toNat then true
      else if d.toNat < c.toNat then false
      else charListLe cs ds

/-- Python `a <= b` on strings. -/
def strLe (a b : String) : Bool :=
  charListLe a.data b.data

/-- Python `sorted(set(l))` for strings: duplicates removed, then sorted
lexicographically by code points.  (`set` is unordered, so sorting the
first-occurrence dedup gives the same list.) -/
def sortedDedup (l : List String) : List String :=
  List.insertionSort (fun a b => strLe a b = true) l.dedup

/-- `dict.update` for one key: an existing key keeps its position and gets
the new value, a fresh key is appended. -/
def updateOne (d : List (String × AttrVal)) (k : String) (v : AttrVal) :
    List (String × AttrVal) :=
  if d.any (fun p => p.1 == k) then
    d.map (fun p => if p.1 == k then (k, v) else p)
  else d ++ [(k, v)]

/-- Python `dict.update(kwargs)` on an insertion-ordered mapping. -/
def dictUpdate (d : List (String × AttrVal)) :
    List (String × AttrVal) → List (String × AttrVal)
  | [] => d
  | (k, v) :: rest => dictUpdate (updateOne d k v) rest

/-- `Tag._create_child`: a `str` becomes a `Text` child, a `Tag` is
re-parented to `selfId` and referenced, anything else raises
`ValueError`. -/
def createChild (h : Heap) (selfId : Nat) :
    ContentItem → Except Unit (Heap × Child)
  | .str s => .ok (h, .text s)
  | .tag id =>
      .ok (modifyNode h id (fun n => { n with parent := some selfId }), .node id)
  | .bad => .error ()

/-- `[self._create_child(item) for item in content]`: left-to-right, the
first bad item raises. -/
def createChildren (h : Heap) (selfId : Nat) :
    List ContentItem → Except Unit (Heap × List Child)
  | [] => .ok (h, [])
  | item :: rest => do
      let (h1, c) ← createChild h selfId item
      let (h2, cs) ← createChildren h1 selfId rest
      .ok (h2, c :: cs)

/-- `Tag.normalize`: `None` stays `None`; a `str` or `Tag` becomes a
one-element child list (the `Tag` re-parented); an iterable is normalized
element-wise; anything else raises `ValueError`. -/
def normalize (h : Heap) (selfId : Nat) :
    Content → Except Unit (Heap × Option (List Child))
  | .none => .ok (h, Option.none)
  | .str s => .ok (h, some [.text s])
  | .tag id =>
      .ok (modifyNode h id (fun n => { n with parent := some selfId }),
        some [.node id])
  | .iter items => do
      let (h1, cs) ← createChildren h selfId items
      .ok (h1, some cs)
  | .bad => .error ()

/-- `Tag.affix`: normalize the content; when the normalized list is truthy
(non-`None` and non-empty) append the candidates that are not already
(`==`-)equal to an existing child; then merge `args` as a re-sorted set
union and `kwargs` by `dict.update`. -/
def affix (h : Heap) (selfId : Nat) (content : Content)
    (args : List String) (kwargs : List (String × AttrVal)) :
    Except Unit Heap := do
  let (h1, childrenOpt) ← normalize h selfId content
  let h2 :=
    match childrenOpt with
    | Option.none => h1
    | some [] => h1
    | some cs =>
        modifyNode h1 selfId (fun n =>
          let old := n.children.getD []
          let newc := cs.filter (fun c => decide (c ∉ old))
          { n with children := some (old ++ newc) })
  .ok (modifyNode h2 selfId (fun n =>
    { n with
        args := sortedDedup (n.args ++ args)
        kwargs := dictUpdate n.kwargs kwargs }))

/-- `Tag.__init__`: allocate the object with `sorted(set(args))` and the
given kwargs, normalize the content into `children`, then — when the
context stack is non-empty — affix the new object to the top of the
stack.  Returns the final heap and the new object's id. -/
def construct (h : Heap) (stack : List Nat) (tag_name : String)
    (content : Content) (args : List String)
    (kwargs : List (String × AttrVal)) : Except Unit (Heap × Nat) := do
  let newId := h.length
  let h0 := h ++ [{ tag_name := tag_name, args := sortedDedup args,
                    kwargs := kwargs, children := Option.none,
                    parent := Option.none }]
  let (h1, cs) ← normalize h0 newId content
  let h2 := modifyNode h1 newId (fun n => { n with children := cs })
  match stack with
  | [] => .ok (h2, newId)
  | top :: _ => do
      let h3 ← affix h2 top (.tag newId) [] []
      .ok (h3, newId)

/-- `Tag.__enter__`: push onto the context stack (head = top). -/
def enter (stack : List Nat) (selfId : Nat) : List Nat :=
  selfId :: stack

/-- `Tag.__exit__`: pop the stack (raises on an empty stack), then filter
`self.children` to keep `str` children and `Tag` children whose `parent`
is `self`; iterating `None` children raises `TypeError`, embedded as
`Option.none`. -/
def exitScope (h : Heap) (stack : List Nat) (selfId : Nat) :
    Option (Heap × List Nat) :=
  match stack with
  | [] => Option.none
  | _ :: rest =>
      match h[selfId]? with
      | Option.none => Option.none
      | some n =>
          match n.children with
          | Option.none => Option.none
          | some cs =>
              some (modifyNode h selfId (fun m =>
                { m with children := some (cs.filter (fun c =>
                    match c with
                    | Child.text _ => true
                    | Child.node j =>
                        match h[j]? with
                        | some cn => cn.parent == some selfId
                        | Option.none => false)) }), rest)

/-- Attribute-key amendment in `Tag.__repr__`: `class_` / `for_` lose the
trailing underscore, every other key has each `_` replaced by `-`
(`str.replace` with a one-character pattern is a character map). -/
def amendKey (k : String) : String :=
  if k = "class_" ∨ k = "for_" then k.dropRight 1
  else String.mk (k.data.map (fun c => if c = '_' then '-' else c))

/-- The rendered `key="value"` tokens: keys amended, entries with `None`
values dropped, values interpolated by `str()`. -/
def kwargsStrings (l : List (String × AttrVal)) : List String :=
  (l.map (fun p => (amendKey p.1, p.2))).filterMap (fun p =>
    match p.2 with
    | AttrVal.none => Option.none
    | v => some (p.1 ++ "=\"" ++ v.strForm ++ "\""))

/-- Python `" ".join`. -/
def joinSpace : List String → String
  | [] => ""
  | [x] => x
  | x :: xs => x ++ " " ++ joinSpace xs

/-- Python `"".join`. -/
def concatStrs : List String → String
  | [] => ""
  | [x] => x
  | x :: xs => x ++ concatStrs xs

/-- `Tag.__repr__` (= `str(tag)` = render), fuel-bounded because a heap
with a reference cycle would make the Python version recurse forever:
`<name args kwargs />` for `None` children, otherwise the children
rendered in order between open and close tags. -/
def renderNode (h : Heap) : Nat → Nat → String
  | 0, _ => ""
  | fuel + 1, i =>
      match h[i]? with
      | Option.none => ""
      | some n =>
          let attrStr :=
            joinSpace (n.tag_name :: (n.args ++ kwargsStrings n.kwargs))
          match n.children with
          | Option.none => "<" ++ attrStr ++ " />"
          | some cs =>
              "<" ++ attrStr ++ ">" ++
                concatStrs (cs.map (fun c =>
                  match c with
                  | Child.text s => s
                  | Child.node j => renderNode h fuel j)) ++
                "</" ++ n.tag_name ++ ">"

/-- The `children` field of the node at `i` (`Option.none` also when `i`
is out of range). -/
def childrenOf (h : Heap) (i : Nat) : Option (List Child) :=
  match h[i]? with
  | some n => n.children
  | Option.none => Option.none

/-- The `args` field of the node at `i`. -/
def argsOf (h : Heap) (i : Nat) : List String :=
  match h[i]? with
  | some n => n.args
  | Option.none => []

/-- How many copies of the text `s` a child list holds. -/
def countText (s : String) (l : List Child) : Nat :=
  l.count (Child.text s)

/-! ### Helper lemmas about the heap operations -/

theorem modifyNode_length (h : Heap) (i : Nat) (f : Tag → Tag) :
    (modifyNode h i f).length = h.length := by
  induction h generalizing i with
  | nil => rfl
  | cons n rest ih =>
      cases i with
      | zero => rfl
      | succ k => simpa [modifyNode] using ih k

theorem getElem?_modifyNode (h : Heap) (i j : Nat) (f : Tag → Tag) :
    (modifyNode h i f)[j]? = if j = i then (h[j]?).map f else h[j]? := by
  induction h generalizing i j with
  | nil => simp [modifyNode]
  | cons n rest ih =>
      cases i with
      | zero =>
          cases j with
          | zero => simp [modifyNode]
          | succ jj => simp [modifyNode]
      | succ ii =>
          cases j with
          | zero => simp [modifyNode]
          | succ jj => simpa [modifyNode] using ih ii jj

theorem bind_ok {α β : Type} (a : α) (f : α → Except Unit β) :
    (Except.ok a >>= f) = f a := rfl

theorem bind_error {α β : Type} (f : α → Except Unit β) :
    ((Except.error () : Except Unit α) >>= f) = Except.error () := rfl

/-- `createChild` touches only `parent` fields: `args` and `children` of
every node are unchanged. -/
theorem createChild_preserve (h : Heap) (selfId : Nat) (item : ContentItem)
    (h1 : Heap) (c : Child) (e : createChild h selfId item = .ok (h1, c))
    (i : Nat) : argsOf h1 i = argsOf h i ∧ childrenOf h1 i = childrenOf h i := by
  cases item with
  | str s =>
      cases e
      exact ⟨rfl, rfl⟩
  | tag id =>
      cases e
      constructor
      · simp only [argsOf, getElem?_modifyNode]
        by_cases hji : i = id
        · subst hji
          cases h[i]? <;> simp
        · simp [hji]
      · simp only [childrenOf, getElem?_modifyNode]
        by_cases hji : i = id
        · subst hji
          cases h[i]? <;> simp
        · simp [hji]
  | bad => cases e

/-- `createChildren` touches only `parent` fields. -/
theorem createChildren_preserve (selfId : Nat) (items : List ContentItem)
    (h h1 : Heap) (cs : List Child)
    (e : createChildren h selfId items = .ok (h1, cs)) (i : Nat) :
    argsOf h1 i = argsOf h i ∧ childrenOf h1 i = childrenOf h i := by
  induction items generalizing h cs with
  | nil =>
      cases e
      exact ⟨rfl, rfl⟩
  | cons item rest ih =>
      simp only [createChildren] at e
      cases e1 : createChild h selfId item with
      | error u => rw [e1] at e; cases e
      | ok p =>
          obtain ⟨hA, cA⟩ := p
          rw [e1, bind_ok] at e
          cases e2 : createChildren hA selfId rest with
          | error u => rw [e2] at e; cases e
          | ok q =>
              obtain ⟨hB, csB⟩ := q
              rw [e2, bind_ok] at e
              cases e
              obtain ⟨p1, p2⟩ := createChild_preserve h selfId item hA cA e1 i
              obtain ⟨q1, q2⟩ := ih hA csB e2
              exact ⟨q1.trans p1, q2.trans p2⟩

/-- `normalize` touches only `parent` fields. -/
theorem normalize_preserve (h : Heap) (selfId : Nat) (c : Content)
    (h1 : Heap) (cs : Option (List Child))
    (e : normalize h selfId c = .ok (h1, cs)) (i : Nat) :
    argsOf h1 i = argsOf h i ∧ childrenOf h1 i = childrenOf h i := by
  cases c with
  | none => cases e; exact ⟨rfl, rfl⟩
  | str s => cases e; exact ⟨rfl, rfl⟩
  | tag id =>
      cases e
      exact createChild_preserve h selfId (ContentItem.tag id) _ (Child.node id)
        rfl i
  | iter items =>
      simp only [normalize] at e
      cases e1 : createChildren h selfId items with
      | error u => rw [e1] at e; cases e
      | ok q =>
          obtain ⟨hB, csB⟩ := q
          rw [e1, bind_ok] at e
          cases e
          exact createChildren_preserve selfId items h hB csB e1 i
  | bad => cases e

theorem createChild_length (h : Heap) (selfId : Nat) (item : ContentItem)
    (h1 : Heap) (c : Child) (e : createChild h selfId item = .ok (h1, c)) :
    h1.length = h.length := by
  cases item with
  | str s => cases e; rfl
  | tag id => cases e; exact modifyNode_length h id _
  | bad => cases e

theorem createChildren_length (selfId : Nat) (items : List ContentItem)
    (h h1 : Heap) (cs : List Child)
    (e : createChildren h selfId items = .ok (h1, cs)) :
    h1.length = h.length := by
  induction items generalizing h cs with
  | nil => cases e; rfl
  | cons item rest ih =>
      simp only [createChildren] at e
      cases e1 : createChild h selfId item with
      | error u => rw [e1] at e; cases e
      | ok p =>
          obtain ⟨hA, cA⟩ := p
          rw [e1, bind_ok] at e
          cases e2 : createChildren hA selfId rest with
          | error u => rw [e2] at e; cases e
          | ok q =>
              obtain ⟨hB, csB⟩ := q
              rw [e2, bind_ok] at e
              cases e
              exact (ih hA csB e2).trans (createChild_length h selfId item hA cA e1)

theorem normalize_length (h : Heap) (selfId : Nat) (c : Content)
    (h1 : Heap) (cs : Option (List Child))
    (e : normalize h selfId c = .ok (h1, cs)) : h1.length = h.length := by
  cases c with
  | none => cases e; rfl
  | str s => cases e; rfl
  | tag id => cases e; exact modifyNode_length h id _
  | iter items =>
      simp only [normalize] at e
      cases e1 : createChildren h selfId items with
      | error u => rw [e1] at e; cases e
      | ok q =>
          obtain ⟨hB, csB⟩ := q
          rw [e1, bind_ok] at e
          cases e
          exact createChildren_length selfId items h hB csB e1
  | bad => cases e

theorem charListLe_total : ∀ xs ys,
    charListLe xs ys = true ∨ charListLe ys xs = true := by
  intro xs
  induction xs with
  | nil => intro ys; left; rfl
  | cons x xs ih =>
      intro ys
      cases ys with
      | nil => right; rfl
      | cons y ys' =>
          simp only [charListLe]
          by_cases hxy : x.toNat < y.toNat
          · left; simp [hxy]
          · by_cases hyx : y.toNat < x.toNat
            · right; simp [hyx, hxy]
            · rcases ih ys' with hc | hc <;> simp [hxy, hyx, hc]

theorem charListLe_trans : ∀ xs ys zs, charListLe xs ys = true →
    charListLe ys zs = true → charListLe xs zs = true := by
  intro xs
  induction xs with
  | nil => intro ys zs _ _; rfl
  | cons x xs ih =>
      intro ys zs h1 h2
      cases ys with
      | nil => simp [charListLe] at h1
      | cons y ys' =>
          cases zs with
          | nil => simp [charListLe] at h2
          | cons z zs' =>
              simp only [charListLe] at h1 h2 ⊢
              by_cases hxy : x.toNat < y.toNat
              · by_cases hyz : y.toNat < z.toNat
                · have hxz : x.toNat < z.toNat := Nat.lt_trans hxy hyz
                  simp [hxz]
                · by_cases hzy : z.toNat < y.toNat
                  · simp [hyz, hzy] at h2
                  · have hxz : x.toNat < z.toNat := by omega
                    simp [hxz]
              · by_cases hyx : y.toNat < x.toNat
                · simp [hxy, hyx] at h1
                · simp only [if_neg hxy, if_neg hyx] at h1
                  by_cases hyz : y.toNat < z.toNat
                  · have hxz : x.toNat < z.toNat := by omega
                    simp [hxz]
                  · by_cases hzy : z.toNat < y.toNat
                    · simp [hyz, hzy] at h2
                    · have hxz1 : ¬ x.toNat < z.toNat := by omega
                      have hxz2 : ¬ z.toNat < x.toNat := by omega
                      simp only [if_neg hyz, if_neg hzy] at h2
                      simp only [if_neg hxz1, if_neg hxz2]
                      exact ih ys' zs' h1 h2

/-- The output of `sorted(set(·))` is sorted under Python's string
order. -/
theorem sortedDedup_sorted (l : List String) :
    (sortedDedup l).Sorted (fun a b => strLe a b = true) := by
  haveI : IsTotal String (fun a b => strLe a b = true) :=
    ⟨fun a b => charListLe_total a.data b.data⟩
  haveI : IsTrans String (fun a b => strLe a b = true) :=
    ⟨fun a b c => charListLe_trans a.data b.data c.data⟩
  exact List.sorted_insertionSort _ _

/-- The output of `sorted(set(·))` has no duplicates. -/
theorem sortedDedup_nodup (l : List String) : (sortedDedup l).Nodup :=
  ((List.perm_insertionSort _ _).nodup_iff).mpr (List.nodup_dedup l)

/-- `affix` replaces the target's `args` by the re-sorted deduplicated
merge of the old `args` and the new ones. -/
theorem affix_args (h : Heap) (i : Nat) (c : Content) (extra : List String)
    (kw : List (String × AttrVal)) (h' : Heap) (hi : i < h.length)
    (ha : affix h i c extra kw = .ok h') :
    argsOf h' i = sortedDedup (argsOf h i ++ extra) := by
  simp only [affix] at ha
  cases e1 : normalize h i c with
  | error u => rw [e1] at ha; cases ha
  | ok p =>
      obtain ⟨h1, copt⟩ := p
      rw [e1, bind_ok] at ha
      have hlen : h1.length = h.length := normalize_length h i c h1 copt e1
      have hi1 : i < h1.length := by rw [hlen]; exact hi
      have hg1 : h1[i]? = some h1[i] := List.getElem?_eq_getElem hi1
      have hargs : argsOf h1 i = argsOf h i :=
        (normalize_preserve h i c h1 copt e1 i).1
      have hA : h1[i].args = argsOf h i := by
        rw [← hargs]; simp [argsOf, hg1]
      cases copt with
      | none =>
          cases ha
          simp [argsOf, getElem?_modifyNode, hg1, hA]
      | some cs =>
          cases cs with
          | nil =>
              cases ha
              simp [argsOf, getElem?_modifyNode, hg1, hA]
          | cons c0 cs' =>
              cases ha
              simp [argsOf, getElem?_modifyNode, hg1, hA]

/-- A node freshly constructed under an empty context stack stores
`sorted(set(args))` as its positional attributes. -/
theorem construct_args (g : Heap) (t : String) (c2 : Content)
    (args2 : List String) (kw2 : List (String × AttrVal)) (hh : Heap)
    (j : Nat) (hc : construct g [] t c2 args2 kw2 = .ok (hh, j)) :
    argsOf hh j = sortedDedup args2 := by
  simp only [construct] at hc
  cases e1 : normalize
      (g ++ [⟨t, sortedDedup args2, kw2, Option.none, Option.none⟩])
      g.length c2 with
  | error u => rw [e1] at hc; cases hc
  | ok p =>
      obtain ⟨h1, copt⟩ := p
      rw [e1, bind_ok] at hc
      cases hc
      have hlen : h1.length = g.length + 1 := by
        rw [normalize_length _ _ _ _ _ e1]; simp
      have hj : g.length < h1.length := by omega
      have hg1 : h1[g.length]? = some h1[g.length] :=
        List.getElem?_eq_getElem hj
      have hargs : argsOf h1 g.length =
          argsOf (g ++ [⟨t, sortedDedup args2, kw2, Option.none, Option.none⟩])
            g.length :=
        (normalize_preserve _ _ _ _ _ e1 _).1
      have hbase : argsOf
          (g ++ [⟨t, sortedDedup args2, kw2, Option.none, Option.none⟩])
          g.length = sortedDedup args2 := by
        simp [argsOf]
      have hA : h1[g.length].args = sortedDedup args2 := by
        rw [← hbase, ← hargs]; simp [argsOf, hg1]
      simp [argsOf, getElem?_modifyNode, hg1, hA]

/-- An iterable content with a bad element makes the list comprehension
raise while normalizing that element. -/
theorem createChildren_error_of_bad : ∀ (items : List ContentItem),
    ContentItem.bad ∈ items → ∀ (h : Heap) (selfId : Nat),
    createChildren h selfId items = .error () := by
  intro items
  induction items with
  | nil => intro hmem; cases hmem
  | cons item rest ih =>
      intro hmem h selfId
      cases item with
      | bad => rfl
      | str s =>
          have hr : ContentItem.bad ∈ rest := by
            rcases List.mem_cons.mp hmem with he | hr
            · cases he
            · exact hr
          simp only [createChildren, createChild, bind_ok]
          rw [ih hr h selfId]
          rfl
      | tag id =>
          have hr : ContentItem.bad ∈ rest := by
            rcases List.mem_cons.mp hmem with he | hr
            · cases he
            · exact hr
          simp only [createChildren, createChild, bind_ok]
          rw [ih hr _ selfId]
          rfl

/-- An iterable content with only `str` / `Tag` elements normalizes
without raising. -/
theorem createChildren_ok_of_good : ∀ (items : List ContentItem),
    ContentItem.bad ∉ items → ∀ (h : Heap) (selfId : Nat),
    ∃ r, createChildren h selfId items = .ok r := by
  intro items
  induction items with
  | nil => intro _ h selfId; exact ⟨(h, []), rfl⟩
  | cons item rest ih =>
      intro hmem h selfId
      have hr : ContentItem.bad ∉ rest := fun hc =>
        hmem (List.mem_cons_of_mem _ hc)
      cases item with
      | bad => exact absurd (List.mem_cons_self _ _) hmem
      | str s =>
          obtain ⟨r, hrec⟩ := ih hr h selfId
          refine ⟨(r.1, Child.text s :: r.2), ?_⟩
          simp only [createChildren, createChild, bind_ok]
          rw [hrec]
          rfl
      | tag id =>
          obtain ⟨r, hrec⟩ := ih hr
            (modifyNode h id (fun n => { n with parent := some selfId })) selfId
          refine ⟨(r.1, Child.node id :: r.2), ?_⟩
          simp only [createChildren, createChild, bind_ok]
          rw [hrec]
          rfl

/-! ### Claim theorems -/

/-- C1: starting from an empty context stack, entering a scope on Node A,
constructing B and C inside it (each auto-attaching to the top of the
stack) and then explicitly attaching C to B inside the same scope leaves —
after the scope exits — A's children containing B but not C, and B's
children containing C (exit keeps only text leaves and nodes whose parent
is A itself). -/
theorem scoped_nesting_reconciliation :
    (do
      let (h, a) ← construct [] [] "a" Content.none [] []
      let st := enter [] a
      let (h1, b) ← construct h st "b" Content.none [] []
      let (h2, c) ← construct h1 st "c" Content.none [] []
      let h3 ← affix h2 b (Content.tag c) [] []
      match exitScope h3 st a with
      | some (h4, _) =>
          pure (childrenOf h4 a, childrenOf h4 b,
            decide (Child.node b ∈ (childrenOf h4 a).getD []),
            decide (Child.node c ∈ (childrenOf h4 a).getD []),
            decide (Child.node c ∈ (childrenOf h4 b).getD []))
      | Option.none => Except.error ()) =
      Except.ok (some [Child.node 1], some [Child.node 2], true, false, true) := by
  rfl

/-- C2: constructing with string content `s` under an empty context and no
attributes renders as `<t>s</t>` (also for `s = ""`, which gives
`<t></t>`), while constructing with absent content renders the
self-closing `<t />`. -/
theorem render_construct_content (t s : String) :
    (match construct [] [] t (Content.str s) [] [] with
     | .ok (h, i) => renderNode h 1 i
     | .error _ => "ERR") = "<" ++ t ++ ">" ++ s ++ "</" ++ t ++ ">" ∧
    (match construct [] [] t (Content.str "") [] [] with
     | .ok (h, i) => renderNode h 1 i
     | .error _ => "ERR") = "<" ++ t ++ ">" ++ "</" ++ t ++ ">" ∧
    (match construct [] [] t Content.none [] [] with
     | .ok (h, i) => renderNode h 1 i
     | .error _ => "ERR") = "<" ++ t ++ " />" := by
  refine ⟨rfl, ?_, rfl⟩
  show "<" ++ t ++ ">" ++ "" ++ "</" ++ t ++ ">" = "<" ++ t ++ ">" ++ "</" ++ t ++ ">"
  rw [String.append_empty]

/-- C10: `__exit__` on a non-empty stack fails exactly when the exited
node's children are absent (iterating `None` raises `TypeError`); in
particular a void node constructed under an empty context, entered and
exited with nothing attached inside, makes the exit fail. -/
theorem exit_requires_present_children (h : Heap) (stack : List Nat)
    (i : Nat) (hi : i < h.length) (hs : stack ≠ []) :
    ((exitScope h stack i).isNone ↔ childrenOf h i = Option.none) ∧
    (match construct [] [] "br" Content.none [] [] with
     | .ok (hh, ii) => exitScope hh (enter [] ii) ii
     | .error _ => some ([], [])) = Option.none := by
  refine ⟨?_, rfl⟩
  cases stack with
  | nil => exact absurd rfl hs
  | cons top rest =>
      have hg : h[i]? = some h[i] := List.getElem?_eq_getElem hi
      simp only [exitScope, childrenOf, hg]
      cases hc : h[i].children with
      | none => simp
      | some cs => simp

/-- C10 witness. -/
theorem exit_requires_present_children_witness :
    ((exitScope [⟨"br", [], [], Option.none, Option.none⟩] [0] 0).isNone ↔
      childrenOf [⟨"br", [], [], Option.none, Option.none⟩] 0 = Option.none) ∧
    (match construct [] [] "br" Content.none [] [] with
     | .ok (hh, ii) => exitScope hh (enter [] ii) ii
     | .error _ => some ([], [])) = Option.none :=
  exit_requires_present_children [⟨"br", [], [], Option.none, Option.none⟩]
    [0] 0 (by decide) (by decide)

/-- C3 (amended): the second of two successive attaches of the same string
`s` is a no-op on the child list, and after the first attach the number of
copies of `s` among the children is `max (previous count) 1` — so exactly
one copy when the node did not already hold duplicate copies of `s`.
(The un-amended "exactly one copy" fails for a node constructed with an
iterable containing `s` twice, see the counterexample.) -/
theorem affix_text_twice (h : Heap) (i : Nat) (s : String)
    (hi : i < h.length) :
    ∃ h1 h2, affix h i (Content.str s) [] [] = .ok h1 ∧
      affix h1 i (Content.str s) [] [] = .ok h2 ∧
      childrenOf h2 i = childrenOf h1 i ∧
      countText s ((childrenOf h1 i).getD []) =
        max (countText s ((childrenOf h i).getD [])) 1 := by
  have hg : h[i]? = some h[i] := List.getElem?_eq_getElem hi
  refine ⟨_, _, rfl, rfl, ?_, ?_⟩
  · simp [childrenOf, getElem?_modifyNode, hg]
  · simp [childrenOf, getElem?_modifyNode, hg, countText]
    by_cases hmem : Child.text s ∈ h[i].children.getD []
    · have hpos : 0 < List.count (Child.text s) (h[i].children.getD []) :=
        List.count_pos_iff.mpr hmem
      simp [List.filter, hmem]
    · have hz : List.count (Child.text s) (h[i].children.getD []) = 0 :=
        List.count_eq_zero.mpr hmem
      simp [List.filter, hmem, hz]

/-- C3 witness: attaching `"x"` twice to a concrete childless `p` node. -/
theorem affix_text_twice_witness :
    ∃ h1 h2,
      affix [⟨"p", [], [], Option.none, Option.none⟩] 0
        (Content.str "x") [] [] = .ok h1 ∧
      affix h1 0 (Content.str "x") [] [] = .ok h2 ∧
      childrenOf h2 0 = childrenOf h1 0 ∧
      countText "x" ((childrenOf h1 0).getD []) =
        max (countText "x"
          ((childrenOf [⟨"p", [], [], Option.none, Option.none⟩] 0).getD [])) 1 :=
  affix_text_twice [⟨"p", [], [], Option.none, Option.none⟩] 0 "x" (by decide)

/-- C3 counterexample to the claim as stated: a node constructed with the
iterable `["x", "x"]` holds two copies of the text `"x"` (construction
does not deduplicate), and attaching `"x"` twice afterwards still leaves
two copies, not one. -/
theorem affix_text_twice_cex :
    (do
      let (h, i) ← construct [] [] "div"
        (Content.iter [ContentItem.str "x", ContentItem.str "x"]) [] []
      let h1 ← affix h i (Content.str "x") [] []
      let h2 ← affix h1 i (Content.str "x") [] []
      pure (countText "x" ((childrenOf h2 i).getD []))) =
      Except.ok 2 := by rfl

/-- C4: after construction and after every attach the positional
attributes are duplicate-free and sorted (lexicographically by code
points, Python's string order); `affix` merges them as a re-sorted set
union; attaching `"world"`, `"foo"`, `"bar"` to a `div` constructed with
none yields `["bar", "foo", "world"]`. -/
theorem positional_attrs_invariant (h : Heap) (i : Nat) (c : Content)
    (extra : List String) (kw : List (String × AttrVal)) (h' : Heap)
    (hi : i < h.length) (ha : affix h i c extra kw = .ok h')
    (g : Heap) (t : String) (c2 : Content) (args2 : List String)
    (kw2 : List (String × AttrVal)) (hh : Heap) (j : Nat)
    (hc : construct g [] t c2 args2 kw2 = .ok (hh, j)) :
    (∀ l : List String, (sortedDedup l).Sorted (fun a b => strLe a b = true) ∧
      (sortedDedup l).Nodup) ∧
    argsOf h' i = sortedDedup (argsOf h i ++ extra) ∧
    (argsOf h' i).Sorted (fun a b => strLe a b = true) ∧
    (argsOf h' i).Nodup ∧
    argsOf hh j = sortedDedup args2 ∧
    (argsOf hh j).Sorted (fun a b => strLe a b = true) ∧
    (argsOf hh j).Nodup ∧
    (do
      let (hx, ix) ← construct [] [] "div" (Content.str "x") [] []
      let hy ← affix hx ix (Content.str "y") ["world", "foo", "bar"] []
      pure (argsOf hy ix)) = Except.ok ["bar", "foo", "world"] := by
  have haf := affix_args h i c extra kw h' hi ha
  have hco := construct_args g t c2 args2 kw2 hh j hc
  refine ⟨fun l => ⟨sortedDedup_sorted l, sortedDedup_nodup l⟩, haf, ?_, ?_,
    hco, ?_, ?_, by rfl⟩
  · rw [haf]; exact sortedDedup_sorted _
  · rw [haf]; exact sortedDedup_nodup _
  · rw [hco]; exact sortedDedup_sorted _
  · rw [hco]; exact sortedDedup_nodup _

/-- C4 witness: the affix part at a concrete one-node heap. -/
theorem positional_attrs_invariant_witness :
    argsOf [(⟨"div", [], [], Option.none, Option.none⟩ : Tag)] 0 =
      sortedDedup
        (argsOf [(⟨"div", [], [], Option.none, Option.none⟩ : Tag)] 0 ++ []) :=
  (positional_attrs_invariant
    [⟨"div", [], [], Option.none, Option.none⟩] 0 Content.none [] []
    [⟨"div", [], [], Option.none, Option.none⟩] (by decide) rfl
    [] "p" Content.none [] [] [⟨"p", [], [], Option.none, Option.none⟩] 0
    rfl).2.1

/-- C9 (amended): attaching content whose normalized child list is
non-empty to any node — in particular to a void node — makes the node's
children a present, non-empty sequence.  (The un-amended claim fails for
an empty-iterable content, see the counterexample.) -/
theorem affix_nonempty_makes_children (h : Heap) (i : Nat) (c : Content)
    (h1 : Heap) (cs : List Child) (hi : i < h.length)
    (hn : normalize h i c = .ok (h1, some cs)) (hne : cs ≠ [])
    (h' : Heap) (ha : affix h i c [] [] = .ok h') :
    ∃ l, childrenOf h' i = some l ∧ l ≠ [] := by
  have hi1 : i < h1.length := by
    rw [normalize_length h i c h1 (some cs) hn]; exact hi
  simp only [affix] at ha
  rw [hn, bind_ok] at ha
  cases cs with
  | nil => exact absurd rfl hne
  | cons c0 cs' =>
      simp only at ha
      cases ha
      have hg : h1[i]? = some h1[i] := List.getElem?_eq_getElem hi1
      simp only [childrenOf, getElem?_modifyNode, if_pos rfl, hg, Option.map_some']
      refine ⟨_, rfl, ?_⟩
      intro hemp
      rcases List.append_eq_nil.mp hemp with ⟨hold, hnew⟩
      have : c0 ∈ (c0 :: cs').filter
          (fun cc => decide (cc ∉ h1[i].children.getD [])) := by
        rw [List.mem_filter]
        refine ⟨List.mem_cons_self _ _, ?_⟩
        rw [hold]
        simp
      rw [hnew] at this
      exact absurd this (List.not_mem_nil c0)

/-- C9 counterexample to the claim as stated: attaching an empty iterable
(non-absent content) to a void node leaves its children absent — the
normalized child list is empty and falsy, so `affix` skips the child
update. -/
theorem affix_empty_iter_leaves_void :
    affix [⟨"br", [], [], Option.none, Option.none⟩] 0 (Content.iter []) [] [] =
      Except.ok [⟨"br", [], [], Option.none, Option.none⟩] ∧
    childrenOf [⟨"br", [], [], Option.none, Option.none⟩] 0 = Option.none :=
  ⟨rfl, rfl⟩

/-- C9 witness: attaching the string `"x"` to a concrete void `br` node. -/
theorem affix_nonempty_makes_children_witness :
    ∃ l, childrenOf [⟨"br", [], [], some [Child.text "x"], Option.none⟩] 0 =
      some l ∧ l ≠ [] :=
  affix_nonempty_makes_children [⟨"br", [], [], Option.none, Option.none⟩] 0
    (Content.str "x") [⟨"br", [], [], Option.none, Option.none⟩]
    [Child.text "x"] (by decide) rfl (by decide)
    [⟨"br", [], [], some [Child.text "x"], Option.none⟩] rfl

/-- C5: at render time the named-attribute key `class_` becomes `class`
and `for_` becomes `for`; every other key has all underscores replaced by
hyphens, so a key without an underscore is unchanged; a `div` constructed
with `class_="bar"` renders `class="bar"`. -/
theorem attr_key_amendment (k : String) (h1 : k ≠ "class_")
    (h2 : k ≠ "for_") :
    amendKey "class_" = "class" ∧ amendKey "for_" = "for" ∧
    (amendKey k).data = k.data.map (fun c => if c = '_' then '-' else c) ∧
    ('_' ∉ k.data → amendKey k = k) ∧
    (match construct [] [] "div" Content.none []
        [("class_", AttrVal.str "bar")] with
     | .ok (hh, ii) => renderNode hh 1 ii
     | .error _ => "") = "<div class=\"bar\" />" := by
  refine ⟨by decide, by decide, ?_, ?_, by decide⟩
  · simp [amendKey, h1, h2]
  · intro hu
    have hm : k.data.map (fun c => if c = '_' then '-' else c) = k.data := by
      conv_rhs => rw [← List.map_id k.data]
      apply List.map_congr_left
      intro c hc
      simp only [id]
      rw [if_neg]
      intro hcu
      exact absurd (hcu ▸ hc) hu
    obtain ⟨d⟩ := k
    simp only [amendKey, h1, h2, or_self, if_false] at hm ⊢
    exact congrArg String.mk hm

/-- C5 witness: the underscore-to-hyphen key `data_attr`. -/
theorem attr_key_amendment_witness :
    (amendKey "data_attr").data =
      "data_attr".data.map (fun c => if c = '_' then '-' else c) :=
  (attr_key_amendment "data_attr" (by decide) (by decide)).2.2.1

/-- C6: named attributes render in insertion order as `key="value"` with
the value coerced by `str()` (`3` → `"3"`, `True` → `"True"`); an entry
with a `None` value is omitted entirely while an empty-string value
renders as `key=""` — so `Tag("div", None, id=3, class_=None,
selected="")` renders `<div id="3" selected="" />`. -/
theorem named_attr_rendering (l : List (String × AttrVal))
    (hl : ∀ p ∈ l, p.2 ≠ AttrVal.none) :
    (match construct [] [] "div" Content.none []
        [("id", AttrVal.int 3), ("class_", AttrVal.none),
         ("selected", AttrVal.str "")] with
     | .ok (hh, ii) => renderNode hh 1 ii
     | .error _ => "") = "<div id=\"3\" selected=\"\" />" ∧
    (∀ pre post k, kwargsStrings (pre ++ (k, AttrVal.none) :: post) =
      kwargsStrings (pre ++ post)) ∧
    (∀ n : Int, AttrVal.strForm (AttrVal.int n) = toString n) ∧
    AttrVal.strForm (AttrVal.bool true) = "True" ∧
    kwargsStrings l =
      l.map (fun p => amendKey p.1 ++ "=\"" ++ p.2.strForm ++ "\"") := by
  refine ⟨by decide, ?_, fun n => rfl, rfl, ?_⟩
  · intro pre post k
    simp [kwargsStrings, List.filterMap_append]
  · induction l with
    | nil => rfl
    | cons p ps ih =>
        obtain ⟨k0, v0⟩ := p
        have hv0 : v0 ≠ AttrVal.none := hl (k0, v0) (List.mem_cons_self _ _)
        have hps : ∀ p ∈ ps, p.2 ≠ AttrVal.none :=
          fun q hq => hl q (List.mem_cons_of_mem _ hq)
        cases v0 with
        | none => exact absurd rfl hv0
        | str s => simpa [kwargsStrings] using ih hps
        | int n => simpa [kwargsStrings] using ih hps
        | bool b => simpa [kwargsStrings] using ih hps

/-- C6 witness: a one-entry attribute list with a non-`None` value. -/
theorem named_attr_rendering_witness :
    kwargsStrings [("id", AttrVal.int 7)] =
      [("id", AttrVal.int 7)].map
        (fun p => amendKey p.1 ++ "=\"" ++ p.2.strForm ++ "\"") :=
  (named_attr_rendering [("id", AttrVal.int 7)] (by decide)).2.2.2.2

/-- C8: `normalize` (hence construction and attach) raises `ValueError`
exactly when the content is not `None`, not a `str`, not a `Tag` and not
an iterable of those: a bad content raises (also through `affix` and
`construct`), an iterable containing a bad element raises while that
element is normalized, and every accepted content kind succeeds. -/
theorem invalid_content_kind (h : Heap) (selfId : Nat)
    (items : List ContentItem) (hbad : ContentItem.bad ∈ items)
    (good : List ContentItem) (hgood : ContentItem.bad ∉ good) :
    normalize h selfId Content.bad = .error () ∧
    affix h selfId Content.bad [] [] = .error () ∧
    (∀ t stack args kw, construct h stack t Content.bad args kw = .error ()) ∧
    normalize h selfId (Content.iter items) = .error () ∧
    (∀ s, ∃ r, normalize h selfId (Content.str s) = .ok r) ∧
    (∃ r, normalize h selfId Content.none = .ok r) ∧
    (∀ id, ∃ r, normalize h selfId (Content.tag id) = .ok r) ∧
    (∃ r, normalize h selfId (Content.iter good) = .ok r) := by
  refine ⟨rfl, rfl, fun t stack args kw => rfl, ?_,
    fun s => ⟨(h, some [Child.text s]), rfl⟩, ⟨(h, Option.none), rfl⟩,
    fun id => ⟨_, rfl⟩, ?_⟩
  · simp only [normalize]
    rw [createChildren_error_of_bad items hbad h selfId]
    rfl
  · obtain ⟨r, hrec⟩ := createChildren_ok_of_good good hgood h selfId
    refine ⟨(r.1, some r.2), ?_⟩
    simp only [normalize]
    rw [hrec]
    rfl

/-- C8 witness: the singleton bad iterable and a two-element good one. -/
theorem invalid_content_kind_witness :
    normalize [] 0 Content.bad = .error () ∧
    affix [] 0 Content.bad [] [] = .error () ∧
    (∀ t stack args kw, construct [] stack t Content.bad args kw = .error ()) ∧
    normalize [] 0 (Content.iter [ContentItem.bad]) = .error () ∧
    (∀ s, ∃ r, normalize [] 0 (Content.str s) = .ok r) ∧
    (∃ r, normalize [] 0 Content.none = .ok r) ∧
    (∀ id, ∃ r, normalize [] 0 (Content.tag id) = .ok r) ∧
    (∃ r, normalize [] 0
      (Content.iter [ContentItem.str "a", ContentItem.tag 0]) = .ok r) :=
  invalid_content_kind [] 0 [ContentItem.bad] (by decide)
    [ContentItem.str "a", ContentItem.tag 0] (by decide)

end Ptag
